import Mathlib

/-!
Verification of the books CRUD service in `src/app.js`.

The development shallowly embeds the program:

* `JValue`, `renderJ`, `parseVal` model the JSON values the service stores and
  the `JSON.stringify(books, null, 2)` / `JSON.parse` pair used by
  `writeBooksFile` / `readBooksFile` (numbers are modelled as integers, the
  only numbers the service ever produces or consumes).
* `Book`, `SAMPLE_BOOKS` model the data and the seed constant (app.js:7-10).
* `postBooks`, `putBooks`, `deleteBooks`, `getBooks` are the route handlers
  (app.js:68-162), `errorHandler` the centralized error middleware
  (app.js:170-180).
* `enqueueWrite`/`runQueue` model the promise write queue (app.js:16-22):
  `writeQueue = writeQueue.then(() => fn()).catch(() => fn())`.
* `RefState`/`readBooksFileRef` instrument the seed path of `readBooksFile`
  (app.js:25-39) with a small object heap, making the reference/aliasing
  behaviour of `SAMPLE_BOOKS.map(b => ({ ...b }))` provable.
-/

/-- The opening brace character, `Char.ofNat 123`. -/
def obrace : Char := Char.ofNat 123

/-- The closing brace character, `Char.ofNat 125`. -/
def cbrace : Char := Char.ofNat 125

/-- JSON values as produced by `JSON.parse`. Object member order is
    significant, as in JavaScript. Numbers are modelled as integers: the
    service only ever stores integer ids and the claims never involve
    fractional numbers. -/
inductive JValue where
  | jnull
  | jbool (b : Bool)
  | jnum (n : Int)
  | jstr (s : String)
  | jarr (elems : List JValue)
  | jobj (members : List (String × JValue))

/-- One book record (app.js data model: id, title, author, available). -/
structure Book where
  id : Int
  title : String
  author : String
  available : Bool
deriving Repr, DecidableEq

/-- The seed constant `SAMPLE_BOOKS` (app.js:7-10). -/
def SAMPLE_BOOKS : List Book :=
  [⟨1, "Atomic Habits", "James Clear", true⟩,
   ⟨2, "Deep Work", "Cal Newport", false⟩]

/-- Encoding of one record as the JSON object the service writes
    (insertion order id, title, author, available — app.js:97-102). -/
def bookToJson (b : Book) : JValue :=
  .jobj [("id", .jnum b.id), ("title", .jstr b.title),
         ("author", .jstr b.author), ("available", .jbool b.available)]

/-- Encoding of a collection as the JSON array the service writes. -/
def booksToJson (bs : List Book) : JValue := .jarr (bs.map bookToJson)

/-! ## Rendering: `JSON.stringify(v, null, 2)` -/

/-- `i` spaces of indentation. -/
def indentC (i : Nat) : List Char := List.replicate i ' '

/-- The hex digit character for `n < 16` (lowercase, as `JSON.stringify`). -/
def hexDigitC (n : Nat) : Char :=
  if n < 10 then Char.ofNat (48 + n) else Char.ofNat (87 + n)

/-- JSON string escaping of one character, exactly the `QuoteJSONString`
    escape set used by `JSON.stringify`: quote, backslash, the five named
    control escapes, `\u00XX` for the remaining control characters. -/
def escChar (c : Char) : List Char :=
  if c = '"' then ['\\', '"']
  else if c = '\\' then ['\\', '\\']
  else if c = '\x08' then ['\\', 'b']
  else if c = '\t' then ['\\', 't']
  else if c = '\n' then ['\\', 'n']
  else if c = '\x0c' then ['\\', 'f']
  else if c = '\r' then ['\\', 'r']
  else if c.toNat < 32 then
    ['\\', 'u', '0', '0', hexDigitC (c.toNat / 16), hexDigitC (c.toNat % 16)]
  else [c]

/-- The escaped body of a JSON string. -/
def escBody (l : List Char) : List Char := l.flatMap escChar

/-- A rendered JSON string: quote, escaped body, quote. -/
def renderStr (s : String) : List Char := '"' :: (escBody s.data ++ ['"'])

/-- Decimal digits of `n`, most significant first. -/
def natChars (n : Nat) : List Char :=
  if h : n < 10 then [Char.ofNat (48 + n)]
  else natChars (n / 10) ++ [Char.ofNat (48 + n % 10)]
decreasing_by exact Nat.div_lt_self (by omega) (by omega)

/-- Decimal rendering of an integer, `-` sign first when negative. -/
def intChars (n : Int) : List Char :=
  if n < 0 then '-' :: natChars n.natAbs else natChars n.toNat

mutual
/-- `JSON.stringify(v, null, 2)` at current indentation `i`: arrays and
    objects open with a newline, indent members by two more spaces, and close
    on their own line at the old indentation; empty composites render flat. -/
def renderJ (i : Nat) : JValue → List Char
  | .jnull => ['n', 'u', 'l', 'l']
  | .jbool true => ['t', 'r', 'u', 'e']
  | .jbool false => ['f', 'a', 'l', 's', 'e']
  | .jnum n => intChars n
  | .jstr s => renderStr s
  | .jarr [] => ['[', ']']
  | .jarr (e :: es) =>
      '[' :: '\n' :: (renderItems (i + 2) (e :: es) ++ '\n' :: (indentC i ++ [']']))
  | .jobj [] => [obrace, cbrace]
  | .jobj (m :: ms) =>
      obrace :: '\n' :: (renderFields (i + 2) (m :: ms) ++ '\n' :: (indentC i ++ [cbrace]))

/-- Array elements, each on its own indented line, separated by `,\n`. -/
def renderItems (i : Nat) : List JValue → List Char
  | [] => []
  | [e] => indentC i ++ renderJ i e
  | e :: es => indentC i ++ renderJ i e ++ ',' :: '\n' :: renderItems i es

/-- Object members, `"key": value` each on its own indented line. -/
def renderFields (i : Nat) : List (String × JValue) → List Char
  | [] => []
  | [(k, v)] => indentC i ++ (renderStr k ++ ':' :: ' ' :: renderJ i v)
  | (k, v) :: ms =>
      indentC i ++ (renderStr k ++ ':' :: ' ' :: renderJ i v) ++ ',' :: '\n' :: renderFields i ms
end

/-! ## Parsing: `JSON.parse` -/

/-- JSON whitespace. -/
def wsChar (c : Char) : Bool := c = ' ' || c = '\n' || c = '\t' || c = '\r'

/-- Drop leading JSON whitespace. -/
def skipWs : List Char → List Char
  | [] => []
  | c :: cs => if wsChar c then skipWs cs else c :: cs

/-- Match an exact literal tail (the `ull` of `null`, etc.). -/
def expectLit : List Char → List Char → Option (List Char)
  | [], cs => some cs
  | _ :: _, [] => none
  | l :: ls, c :: cs => if c = l then expectLit ls cs else none

/-- Numeric value of a hex digit. -/
def hexValC (c : Char) : Option Nat :=
  if 48 ≤ c.toNat ∧ c.toNat ≤ 57 then some (c.toNat - 48)
  else if 97 ≤ c.toNat ∧ c.toNat ≤ 102 then some (c.toNat - 87)
  else if 65 ≤ c.toNat ∧ c.toNat ≤ 70 then some (c.toNat - 55)
  else none

/-- Decode one named escape character. -/
def escDecode (e : Char) : Option Char :=
  if e = '"' then some '"'
  else if e = '\\' then some '\\'
  else if e = '/' then some '/'
  else if e = 'b' then some '\x08'
  else if e = 'f' then some '\x0c'
  else if e = 'n' then some '\n'
  else if e = 'r' then some '\r'
  else if e = 't' then some '\t'
  else none

mutual
/-- Body of a JSON string after the opening quote, up to the closing quote.
    Handles the named escapes and `\uXXXX`; bare control characters are
    rejected, as in JSON. -/
def parseStrChars : List Char → Option (List Char × List Char)
  | [] => none
  | c :: cs =>
    if c = '"' then some ([], cs)
    else if c = '\\' then parseEsc cs
    else if c.toNat < 32 then none
    else
      match parseStrChars cs with
      | some (l, r) => some (c :: l, r)
      | none => none

/-- The character after a backslash inside a JSON string. -/
def parseEsc : List Char → Option (List Char × List Char)
  | [] => none
  | e :: cs =>
    if e = 'u' then
      match cs with
      | h1 :: h2 :: h3 :: h4 :: cs2 =>
        match hexValC h1, hexValC h2, hexValC h3, hexValC h4 with
        | some a, some b, some c, some d =>
          (match parseStrChars cs2 with
           | some (l, r) => some (Char.ofNat (((a * 16 + b) * 16 + c) * 16 + d) :: l, r)
           | none => none)
        | _, _, _, _ => none
      | _ => none
    else
      match escDecode e with
      | some d =>
        (match parseStrChars cs with
         | some (l, r) => some (d :: l, r)
         | none => none)
      | none => none
end

/-- Accumulate a run of decimal digits, stopping at the first non-digit. -/
def parseDigits (acc : Nat) : List Char → Nat × List Char
  | [] => (acc, [])
  | c :: cs =>
    if c.isDigit then parseDigits (acc * 10 + (c.toNat - 48)) cs else (acc, c :: cs)

mutual
/-- One JSON value, after optional leading whitespace. Structural on `fuel`;
    `parseJson` supplies fuel ample for any input. -/
def parseVal : Nat → List Char → Option (JValue × List Char)
  | 0, _ => none
  | f + 1, cs =>
    match skipWs cs with
    | [] => none
    | c :: r =>
      if c = 'n' then
        match expectLit ['u', 'l', 'l'] r with
        | some r2 => some (.jnull, r2)
        | none => none
      else if c = 't' then
        match expectLit ['r', 'u', 'e'] r with
        | some r2 => some (.jbool true, r2)
        | none => none
      else if c = 'f' then
        match expectLit ['a', 'l', 's', 'e'] r with
        | some r2 => some (.jbool false, r2)
        | none => none
      else if c = '"' then
        match parseStrChars r with
        | some (l, r2) => some (.jstr (String.mk l), r2)
        | none => none
      else if c = '[' then
        match skipWs r with
        | [] => none
        | c2 :: r2 =>
          if c2 = ']' then some (.jarr [], r2)
          else
            match parseItems f r with
            | some (es, r3) => some (.jarr es, r3)
            | none => none
      else if c = obrace then
        match skipWs r with
        | [] => none
        | c2 :: r2 =>
          if c2 = cbrace then some (.jobj [], r2)
          else
            match parseFields f r with
            | some (ms, r3) => some (.jobj ms, r3)
            | none => none
      else if c = '-' then
        match r with
        | [] => none
        | d :: r2 =>
          if d.isDigit then
            let p := parseDigits (d.toNat - 48) r2
            some (.jnum (-(p.1 : Int)), p.2)
          else none
      else if c.isDigit then
        let p := parseDigits (c.toNat - 48) r
        some (.jnum (p.1 : Int), p.2)
      else none

/-- One-or-more comma-separated array elements, then the closing bracket. -/
def parseItems : Nat → List Char → Option (List JValue × List Char)
  | 0, _ => none
  | f + 1, cs =>
    match parseVal f cs with
    | none => none
    | some (v, r) =>
      match skipWs r with
      | [] => none
      | c :: r2 =>
        if c = ',' then
          match parseItems f r2 with
          | some (vs, r3) => some (v :: vs, r3)
          | none => none
        else if c = ']' then some ([v], r2)
        else none

/-- One-or-more comma-separated object members, then the closing brace. -/
def parseFields : Nat → List Char → Option (List (String × JValue) × List Char)
  | 0, _ => none
  | f + 1, cs =>
    match skipWs cs with
    | [] => none
    | c :: r =>
      if c = '"' then
        match parseStrChars r with
        | none => none
        | some (k, r1) =>
          match skipWs r1 with
          | [] => none
          | c2 :: r2 =>
            if c2 = ':' then
              match parseVal f r2 with
              | none => none
              | some (v, r3) =>
                match skipWs r3 with
                | [] => none
                | c3 :: r4 =>
                  if c3 = ',' then
                    match parseFields f r4 with
                    | some (ms, r5) => some ((String.mk k, v) :: ms, r5)
                    | none => none
                  else if c3 = cbrace then some ([(String.mk k, v)], r4)
                  else none
            else none
      else none
end

/-- `JSON.parse`: parse one value, allow trailing whitespace only.
    `none` models the `SyntaxError` throw. -/
def parseJson (s : String) : Option JValue :=
  match parseVal (2 * s.data.length + 4) s.data with
  | some (v, rest) => if skipWs rest = [] then some v else none
  | none => none

/-! ## The store (app.js:16-49) -/

/-- Error classes distinguished by the service: `err.code === 'ENOENT'`,
    `err.name === 'SyntaxError'`, and everything else (app.js:170-180). -/
inductive JsErr where
  | enoent
  | syntaxError
  | other
deriving DecidableEq, Repr

/-- The state of `books.json` as the store sees it: absent, readable with some
    contents, or failing to read with a non-`ENOENT` I/O error. -/
inductive FsFile where
  | missing
  | content (raw : String)
  | ioError
deriving DecidableEq

/-- The file contents `writeBooksFile` produces:
    `JSON.stringify(books, null, 2)` (app.js:45). -/
def writeBooksFile (books : List Book) : String := String.mk (renderJ 0 (booksToJson books))

/-- `readBooksFile` (app.js:25-39): read and `JSON.parse` the file; when it is
    missing (`ENOENT`), write the seed via `writeBooksFile(SAMPLE_BOOKS)` and
    return (a copy of) the sample records; re-throw a parse `SyntaxError` or
    any other error. Returns the result together with the file state after the
    call. -/
def readBooksFile : FsFile → Except JsErr JValue × FsFile
  | .content raw =>
    match parseJson raw with
    | some v => (.ok v, .content raw)
    | none => (.error .syntaxError, .content raw)
  | .missing =>
    (.ok (booksToJson SAMPLE_BOOKS), .content (writeBooksFile SAMPLE_BOOKS))
  | .ioError => (.error .other, .ioError)

/-- The centralized error middleware (app.js:170-180): status and message for
    each error class. -/
def errorHandler : JsErr → Nat × String
  | .enoent => (500, "Books file missing and could not be created")
  | .syntaxError => (500, "Books file contains invalid JSON")
  | .other => (500, "Internal server error")

/-! ## The write queue (app.js:16-22)

`enqueueWrite` appends to the promise chain with
`writeQueue = writeQueue.then(() => fn()).catch(() => fn())`.
Promise semantics make the chain fully sequential, so its behaviour is the
fold below. For one enqueued job, with `qOk` the settled state of the chain so
far (`true` = fulfilled): if the chain was fulfilled, the `then` handler runs
`fn()`; if that call rejects, the `catch` handler runs `fn()` a second time
and its outcome settles the chain. If the chain was rejected, the `then`
handler is skipped and the `catch` handler runs `fn()` once. -/

/-- The outcomes of the (up to two) invocations of one queued job's `fn`:
    `first` is the first call's outcome, `second` the outcome of the second
    call should one happen (`true` = the write fulfils). -/
structure WriteJob where
  first : Bool
  second : Bool
deriving DecidableEq, Repr

/-- One `enqueueWrite` call: the new settled state of the chain, and how many
    times `fn` ran. -/
def enqueueWrite (qOk : Bool) (j : WriteJob) : Bool × Nat :=
  if qOk then
    if j.first then (true, 1) else (j.second, 2)
  else (j.first, 1)

/-- Execution trace of a list of enqueued jobs, starting from chain state
    `qOk`: one entry per invocation of a job's `fn`, carrying the submission
    index of the job (starting at `i`), in execution order. -/
def queueTraceFrom (qOk : Bool) (i : Nat) : List WriteJob → List Nat
  | [] => []
  | j :: js =>
    List.replicate (enqueueWrite qOk j).2 i ++ queueTraceFrom (enqueueWrite qOk j).1 (i + 1) js

/-- Execution trace of the whole queue from a fresh chain
    (`let writeQueue = Promise.resolve()`, app.js:16). -/
def queueTrace (jobs : List WriteJob) : List Nat := queueTraceFrom true 0 jobs

/-! ## The route handlers (app.js:68-162) -/

/-- A JavaScript value as it may appear in the `available` field of a request
    body. -/
inductive JsVal where
  | vNull
  | vBool (b : Bool)
  | vNum (n : Int)
  | vStr (s : String)
deriving DecidableEq, Repr

/-- JavaScript `Boolean(v)` truthiness for the modelled values. -/
def jsTruthy : JsVal → Bool
  | .vNull => false
  | .vBool b => b
  | .vNum n => if n = 0 then false else true
  | .vStr s => if s = "" then false else true

/-- `typeof available === 'boolean' ? available : true` (app.js:101). -/
def availOrDefault : Option JsVal → Bool
  | some (.vBool b) => b
  | _ => true

/-- JavaScript falsiness of an optional string field (`!title`):
    absent (`undefined`) or the empty string. -/
def strFalsy : Option String → Bool
  | none => true
  | some s => if s = "" then true else false

/-- The result of `Number(req.params.id)` as the handlers inspect it: either
    an integer, or anything failing `Number.isInteger` (`NaN` or a fractional
    number), written `nan` (app.js:115-116, 146-147). -/
inductive JsNum where
  | nan
  | int (n : Int)
deriving DecidableEq, Repr

/-- The id guard `Number.isInteger(id) && id > 0` (the handlers reject with
    400 exactly when this is `none`). -/
def posIntOf : JsNum → Option Int
  | .nan => none
  | .int n => if 0 < n then some n else none

/-- Store calls a handler performs, in order. -/
inductive StoreEv where
  | load
  | save
deriving DecidableEq, Repr

/-- A response body: a record, a raw JSON value, an `{error}` object, or the
    delete confirmation `{message, book}`. -/
inductive RespBody where
  | record (b : Book)
  | raw (v : JValue)
  | errMsg (e : String)
  | deleted (message : String) (b : Book)

/-- Outcome of one mutating handler run against a decoded collection:
    HTTP status, response body, the persisted collection after the run
    (unchanged unless a save happened), and the store calls made. -/
structure HandlerOut where
  status : Nat
  body : RespBody
  books : List Book
  events : List StoreEv

/-- The `POST /books` request body fields (app.js:90): `title` and `author`
    are text fields when present, `available` any value. -/
structure CreatePayload where
  title : Option String
  author : Option String
  available : Option JsVal

/-- `const maxId = books.reduce((m, b) => Math.max(m, b.id || 0), 0)`
    (app.js:96). -/
def maxId (books : List Book) : Int :=
  books.foldl (fun m b => max m (if b.id = 0 then 0 else b.id)) 0

/-- `POST /books` (app.js:88-110) after body parsing: reject 400 before any
    store access when `!title || !author`; otherwise load, append the record
    `{id: maxId+1, title, author, available}` and save, answering 201 with
    the new record. -/
def postBooks (books : List Book) (p : CreatePayload) : HandlerOut :=
  if strFalsy p.title || strFalsy p.author then
    ⟨400, .errMsg "title and author are required", books, []⟩
  else
    let newBook : Book :=
      ⟨maxId books + 1, p.title.getD "", p.author.getD "", availOrDefault p.available⟩
    ⟨201, .record newBook, books ++ [newBook], [.load, .save]⟩

/-- The `PUT /books/:id` request body fields (app.js:120). -/
structure UpdatePayload where
  title : Option String
  author : Option String
  available : Option JsVal

/-- `List.findIdx?` answers indices below the start index plus the length. -/
theorem findIdx?_lt_start_add_length {α : Type} {p : α → Bool} :
    ∀ {l : List α} {s i : Nat}, List.findIdx? p l s = some i → i < s + l.length := by
  intro l
  induction l with
  | nil => intro s i h; simp [List.findIdx?] at h
  | cons a t ih =>
    intro s i h
    rw [List.findIdx?_cons] at h
    by_cases hp : p a
    · simp [hp] at h
      simp [List.length_cons]
      omega
    · simp [hp] at h
      obtain ⟨a, ha, hi⟩ := h
      have := ih (s := 0) ha
      simp [List.length_cons]
      omega

/-- `List.findIdx?` only answers indices inside the list. -/
theorem findIdx?_lt_length {α : Type} {p : α → Bool} {l : List α} {i : Nat}
    (h : l.findIdx? p = some i) : i < l.length := by
  have := findIdx?_lt_start_add_length h
  omega

/-- The in-place field overwrites of `PUT /books/:id` (app.js:129-132): each
    supplied field replaces the prior value, `available` coerced through
    `Boolean`; unsupplied fields (and the id) are untouched. -/
def updBook (book : Book) (p : UpdatePayload) : Book :=
  { book with
    title := p.title.getD book.title
    author := p.author.getD book.author
    available :=
      match p.available with
      | some v => jsTruthy v
      | none => book.available }

/-- `PUT /books/:id` (app.js:113-141): 400 on a non-positive-integer id, 400
    when no updatable field is supplied (both before any store access), 404
    when the id matches no record, else overwrite exactly the supplied fields
    (coercing `available` through `Boolean`), save, and answer 200 with the
    updated record. -/
def putBooks (books : List Book) (idn : JsNum) (p : UpdatePayload) : HandlerOut :=
  match posIntOf idn with
  | none => ⟨400, .errMsg "Invalid id", books, []⟩
  | some id =>
    if p.title = none ∧ p.author = none ∧ p.available = none then
      ⟨400, .errMsg "Provide at least one of title, author, available", books, []⟩
    else
      match hfind : books.findIdx? (fun b => b.id = id) with
      | none => ⟨404, .errMsg "Book not found", books, [.load]⟩
      | some idx =>
        let upd := updBook (books.get ⟨idx, findIdx?_lt_length hfind⟩) p
        ⟨200, .record upd, books.set idx upd, [.load, .save]⟩

/-- `DELETE /books/:id` (app.js:144-162): 400 on a non-positive-integer id,
    404 when absent, else splice the record out, save, and answer 200 with
    `{message: 'Deleted', book}`. -/
def deleteBooks (books : List Book) (idn : JsNum) : HandlerOut :=
  match posIntOf idn with
  | none => ⟨400, .errMsg "Invalid id", books, []⟩
  | some id =>
    match hfind : books.findIdx? (fun b => b.id = id) with
    | none => ⟨404, .errMsg "Book not found", books, [.load]⟩
    | some idx =>
      let removed := books.get ⟨idx, findIdx?_lt_length hfind⟩
      ⟨200, .deleted "Deleted" removed, books.eraseIdx idx, [.load, .save]⟩

/-- `GET /books` (app.js:68-75) with the error middleware: answer 200 with
    whatever value the file parses to, or the mapped error response. -/
def getBooks (fs : FsFile) : Nat × RespBody × FsFile :=
  match readBooksFile fs with
  | (.ok v, fs2) => (200, .raw v, fs2)
  | (.error e, fs2) => ((errorHandler e).1, .errMsg (errorHandler e).2, fs2)

/-! ## Decoding the stored value back into records

The service itself never decodes — handlers use the parsed array directly —
but the claims speak of the stored records, so the bridge from `JValue` back
to `List Book` is spelled out. -/

/-- A JSON value that is exactly one stored record. -/
def decodeBook : JValue → Option Book
  | .jobj [(k1, .jnum n), (k2, .jstr t), (k3, .jstr a), (k4, .jbool av)] =>
    if k1 = "id" ∧ k2 = "title" ∧ k3 = "author" ∧ k4 = "available" then
      some ⟨n, t, a, av⟩
    else none
  | _ => none

/-- Decode a list of record objects. -/
def decodeBookList : List JValue → Option (List Book)
  | [] => some []
  | e :: es =>
    match decodeBook e, decodeBookList es with
    | some b, some bs => some (b :: bs)
    | _, _ => none

/-- A JSON value that is exactly a stored collection. -/
def decodeBooks : JValue → Option (List Book)
  | .jarr es => decodeBookList es
  | _ => none

/-! ## The data-model invariant (spec section 3) -/

/-- The data-model invariant: positive ids, pairwise-distinct ids, non-empty
    title and author (`available` is boolean by type). -/
def CollOk (bs : List Book) : Prop :=
  (∀ b ∈ bs, 0 < b.id ∧ b.title ≠ "" ∧ b.author ≠ "") ∧ (bs.map (fun b => b.id)).Nodup

instance (bs : List Book) : Decidable (CollOk bs) := by
  unfold CollOk
  infer_instance

/-- A payload that passes create's validation. -/
def validCreate (p : CreatePayload) : Prop :=
  strFalsy p.title = false ∧ strFalsy p.author = false

instance (p : CreatePayload) : Decidable (validCreate p) := by
  unfold validCreate
  infer_instance

/-- Sequential creation: fold the create handler over a list of payloads,
    starting from a collection. -/
def createSeq (bs : List Book) (ps : List CreatePayload) : List Book :=
  ps.foldl (fun acc p => (postBooks acc p).books) bs

/-! ## Heap-instrumented model of the seed path (claim C6)

JavaScript records are references into a heap. `RefState` carries that heap
(a list indexed by address), the addresses held by the `SAMPLE_BOOKS`
constant, and the persisted collection (its bytes abstracted to the decoded
records; `writeBooksFile`/`parseJson` round-tripping is established
separately). `JSON.parse` and the seed path's `SAMPLE_BOOKS.map(b => ({...b}))`
both allocate fresh records. -/

/-- Process state for the reference-level model. -/
structure RefState where
  heap : List Book
  sampleArr : List Nat
  file : Option (List Book)

/-- Allocate the given records at fresh addresses. -/
def allocRecs (heap : List Book) (bs : List Book) : List Book × List Nat :=
  (heap ++ bs, List.range' heap.length bs.length)

/-- The state at process start: the two sample records live at addresses 0
    and 1, held by `SAMPLE_BOOKS`; no file yet. -/
def initRefState : RefState := ⟨SAMPLE_BOOKS, [0, 1], none⟩

/-- `readBooksFile` at the reference level (app.js:25-39): when the file
    exists, `JSON.parse` allocates fresh records for its contents; when it is
    missing, write the current sample values with `writeBooksFile`, then
    return `SAMPLE_BOOKS.map(b => ({ ...b }))` — fresh copies of the records
    `SAMPLE_BOOKS` points to. Returns the addresses handed to the caller. -/
def readBooksFileRef (st : RefState) : List Nat × RefState :=
  match st.file with
  | some bs =>
    let al := allocRecs st.heap bs
    (al.2, ⟨al.1, st.sampleArr, st.file⟩)
  | none =>
    let vals := st.sampleArr.filterMap (fun a => st.heap.get? a)
    let al := allocRecs st.heap vals
    (al.2, ⟨al.1, st.sampleArr, some vals⟩)

/-- An in-place mutation by a caller: overwrite the record at one address. -/
def mutateAt (st : RefState) (a : Nat) (b : Book) : RefState :=
  ⟨st.heap.set a b, st.sampleArr, st.file⟩

/-- The record values a list of addresses denotes. -/
def heapVals (st : RefState) (addrs : List Nat) : List Book :=
  addrs.filterMap (fun a => st.heap.get? a)

/-! ## Whitespace and character facts -/

theorem skipWs_cons_of_ws {c : Char} (h : wsChar c = true) (cs : List Char) :
    skipWs (c :: cs) = skipWs cs := by
  simp [skipWs, h]

theorem skipWs_cons_of_not {c : Char} (h : wsChar c = false) (cs : List Char) :
    skipWs (c :: cs) = c :: cs := by
  simp [skipWs, h]

theorem skipWs_indent (i : Nat) (cs : List Char) : skipWs (indentC i ++ cs) = skipWs cs := by
  induction i with
  | zero => simp [indentC]
  | succ n ih => simpa [indentC, List.replicate_succ, skipWs, wsChar] using ih

theorem parseVal_cons_ws {c : Char} (h : wsChar c = true) (f : Nat) (cs : List Char) :
    parseVal f (c :: cs) = parseVal f cs := by
  cases f with
  | zero => rfl
  | succ g => simp only [parseVal, skipWs_cons_of_ws h]

theorem parseVal_indent (f i : Nat) (cs : List Char) :
    parseVal f (indentC i ++ cs) = parseVal f cs := by
  induction i with
  | zero => simp [indentC]
  | succ n ih =>
    rw [indentC, List.replicate_succ, List.cons_append,
        parseVal_cons_ws (by decide) f (List.replicate n ' ' ++ cs)]
    exact ih

theorem ws_of_digit {c : Char} (h : c.isDigit = true) : wsChar c = false := by
  cases hc : wsChar c with
  | false => rfl
  | true =>
    exfalso
    simp [wsChar] at hc
    rcases hc with ((rfl | rfl) | rfl) | rfl <;> exact absurd h (by decide)

/-- A digit begins no keyword, string, composite, sign, separator or closer. -/
theorem digit_ne_marks {c : Char} (h : c.isDigit = true) :
    c ≠ 'n' ∧ c ≠ 't' ∧ c ≠ 'f' ∧ c ≠ '"' ∧ c ≠ '[' ∧ c ≠ obrace ∧ c ≠ '-' ∧
      c ≠ ']' ∧ c ≠ ',' ∧ c ≠ cbrace ∧ c ≠ ':' := by
  refine ⟨?_, ?_, ?_, ?_, ?_, ?_, ?_, ?_, ?_, ?_, ?_⟩ <;>
    (intro hc; subst hc; exact absurd h (by decide))

/-! ## Decimal digits round-trip -/

theorem digitChar_isDigit {n : Nat} (h : n < 10) : (Char.ofNat (48 + n)).isDigit = true := by
  have hall : ∀ m, m < 10 → (Char.ofNat (48 + m)).isDigit = true := by decide
  exact hall n h

theorem digitChar_toNat {n : Nat} (h : n < 10) : (Char.ofNat (48 + n)).toNat = 48 + n := by
  have hall : ∀ m, m < 10 → (Char.ofNat (48 + m)).toNat = 48 + m := by decide
  exact hall n h

theorem natChars_small {n : Nat} (h : n < 10) : natChars n = [Char.ofNat (48 + n)] := by
  rw [natChars]
  simp [h]

theorem natChars_large {n : Nat} (h : ¬ n < 10) :
    natChars n = natChars (n / 10) ++ [Char.ofNat (48 + n % 10)] := by
  rw [natChars]
  simp [h]

theorem natChars_head (n : Nat) : ∃ c t, natChars n = c :: t ∧ c.isDigit = true := by
  induction n using Nat.strong_induction_on with
  | _ n ih =>
    by_cases h : n < 10
    · exact ⟨Char.ofNat (48 + n), [], natChars_small h, digitChar_isDigit h⟩
    · obtain ⟨c, t, hct, hc⟩ := ih (n / 10) (Nat.div_lt_self (by omega) (by omega))
      exact ⟨c, t ++ [Char.ofNat (48 + n % 10)], by rw [natChars_large h, hct]; rfl, hc⟩

/-- When no further digit follows, `parseDigits` stops with its accumulator. -/
theorem parseDigits_stop {cs : List Char} (acc : Nat)
    (h : cs = [] ∨ ∀ c t, cs = c :: t → c.isDigit = false) :
    parseDigits acc cs = (acc, cs) := by
  cases cs with
  | nil => rfl
  | cons c t =>
    rcases h with h | h
    · cases h
    · simp [parseDigits, h c t rfl]

/-- Consuming a rendered digit run multiplies the accumulator past it. -/
theorem parseDigits_natChars :
    ∀ (n acc : Nat) (rest : List Char),
      parseDigits acc (natChars n ++ rest)
        = parseDigits (acc * 10 ^ (natChars n).length + n) rest := by
  intro n
  induction n using Nat.strong_induction_on with
  | _ n ih =>
    intro acc rest
    by_cases h : n < 10
    · rw [natChars_small h]
      simp [parseDigits, digitChar_isDigit h, digitChar_toNat h]
    · rw [natChars_large h, List.append_assoc, List.cons_append, List.nil_append,
          ih (n / 10) (Nat.div_lt_self (by omega) (by omega))]
      have hm : n % 10 < 10 := Nat.mod_lt _ (by omega)
      simp only [parseDigits, digitChar_isDigit hm, digitChar_toNat hm, if_true]
      congr 1
      have hl : (natChars (n / 10) ++ [Char.ofNat (48 + n % 10)]).length
          = (natChars (n / 10)).length + 1 := by simp
      rw [hl, pow_succ, ← mul_assoc]
      have hmod := Nat.div_add_mod n 10
      generalize acc * 10 ^ (natChars (n / 10)).length = A
      omega

/-! ## String escaping round-trip -/

theorem hexVal_hexDigit {n : Nat} (h : n < 16) : hexValC (hexDigitC n) = some n := by
  have hall : ∀ m, m < 16 → hexValC (hexDigitC m) = some m := by decide
  exact hall n h

/-- One escaped character parses back to the character it encodes. -/
theorem parseStrChars_escChar (c : Char) (X : List Char) :
    parseStrChars (escChar c ++ X)
      = match parseStrChars X with
        | some (l, r) => some (c :: l, r)
        | none => none := by
  by_cases h1 : c = '"'
  · subst h1
    simp [escChar, parseStrChars, parseEsc, escDecode]
  by_cases h2 : c = '\\'
  · subst h2
    simp [escChar, parseStrChars, parseEsc, escDecode]
  by_cases h3 : c = '\x08'
  · subst h3
    simp [escChar, parseStrChars, parseEsc, escDecode]
  by_cases h4 : c = '\t'
  · subst h4
    simp [escChar, parseStrChars, parseEsc, escDecode]
  by_cases h5 : c = '\n'
  · subst h5
    simp [escChar, parseStrChars, parseEsc, escDecode]
  by_cases h6 : c = '\x0c'
  · subst h6
    simp [escChar, parseStrChars, parseEsc, escDecode]
  by_cases h7 : c = '\r'
  · subst h7
    simp [escChar, parseStrChars, parseEsc, escDecode]
  by_cases h8 : c.toNat < 32
  · have hesc : escChar c
        = ['\\', 'u', '0', '0', hexDigitC (c.toNat / 16), hexDigitC (c.toNat % 16)] := by
      simp [escChar, h1, h2, h3, h4, h5, h6, h7, h8]
    rw [hesc]
    have hdiv : c.toNat / 16 < 16 := by omega
    have hmod : c.toNat % 16 < 16 := Nat.mod_lt _ (by omega)
    have h0 : hexValC '0' = some 0 := by decide
    simp only [List.cons_append, List.nil_append]
    simp [parseStrChars, parseEsc, h0, hexVal_hexDigit hdiv, hexVal_hexDigit hmod]
    have harith : c.toNat / 16 * 16 + c.toNat % 16 = c.toNat := by omega
    rw [harith, Char.ofNat_toNat]
  · have hesc : escChar c = [c] := by
      simp [escChar, h1, h2, h3, h4, h5, h6, h7, h8]
    rw [hesc]
    simp [parseStrChars, h1, h2, h8]

/-- The whole escaped body parses back, stopping at the closing quote. -/
theorem parseStrChars_escBody :
    ∀ (l rest : List Char), parseStrChars (escBody l ++ '"' :: rest) = some (l, rest) := by
  intro l
  induction l with
  | nil =>
    intro rest
    simp [escBody, parseStrChars]
  | cons c t ih =>
    intro rest
    have hb : escBody (c :: t) = escChar c ++ escBody t := by
      simp [escBody]
    rw [hb, List.append_assoc, parseStrChars_escChar, ih]

/-! ## Atomic value parses -/

/-- Trailing input that cannot extend a rendered number: empty, or headed by a
    non-digit (every separator the renderer emits qualifies). -/
def numDelim : List Char → Bool
  | [] => true
  | c :: _ => !c.isDigit

theorem numDelim_cons {c : Char} {t : List Char} (h : c.isDigit = false) :
    numDelim (c :: t) = true := by
  simp [numDelim, h]

theorem parseDigits_delim {rest : List Char} (acc : Nat) (h : numDelim rest = true) :
    parseDigits acc rest = (acc, rest) := by
  apply parseDigits_stop
  cases rest with
  | nil => exact Or.inl rfl
  | cons c t =>
    right
    intro c' t' he
    injection he with he1 he2
    subst he1
    simpa [numDelim] using h

theorem parseDigits_run (m : Nat) {rest : List Char} (h : numDelim rest = true) :
    parseDigits 0 (natChars m ++ rest) = (m, rest) := by
  rw [parseDigits_natChars]
  simpa using parseDigits_delim m h

/-- A rendered natural number parses as that number. -/
theorem parseVal_natNum (m : Nat) (f : Nat) (rest : List Char) (hr : numDelim rest = true) :
    parseVal (f + 1) (natChars m ++ rest) = some (.jnum (m : Int), rest) := by
  obtain ⟨c, t, hct, hc⟩ := natChars_head m
  obtain ⟨hn, ht, hf, hq, hbk, hob, hmi, _, _, _, _⟩ := digit_ne_marks hc
  have h2 : parseDigits (c.toNat - 48) (t ++ rest) = (m, rest) := by
    have := parseDigits_run m hr
    rw [hct] at this
    simpa [parseDigits, hc] using this
  rw [hct, List.cons_append]
  simp only [parseVal]
  rw [skipWs_cons_of_not (ws_of_digit hc)]
  simp [hn, ht, hf, hq, hbk, hob, hmi, hc, h2]

/-- A rendered integer parses as that integer. -/
theorem parseVal_intNum (n : Int) (f : Nat) (rest : List Char) (hr : numDelim rest = true) :
    parseVal (f + 1) (intChars n ++ rest) = some (.jnum n, rest) := by
  by_cases hneg : n < 0
  · rw [intChars, if_pos hneg, List.cons_append]
    obtain ⟨c, t, hct, hc⟩ := natChars_head n.natAbs
    have h2 : parseDigits (c.toNat - 48) (t ++ rest) = (n.natAbs, rest) := by
      have := parseDigits_run n.natAbs hr
      rw [hct] at this
      simpa [parseDigits, hc] using this
    have habs : (n.natAbs : Int) = -n := by
      rcases Int.natAbs_eq n with h | h <;> omega
    have hob : ¬ ('-' = obrace) := by decide
    simp only [parseVal]
    rw [skipWs_cons_of_not (by decide)]
    rw [hct, List.cons_append]
    simp [hc, h2, habs, hob]
  · rw [intChars, if_neg hneg, parseVal_natNum n.toNat f rest hr]
    have htn : ((n.toNat : Int)) = n := Int.toNat_of_nonneg (by omega)
    rw [htn]

/-- A rendered string parses as that string. -/
theorem parseVal_str (s : String) (f : Nat) (rest : List Char) :
    parseVal (f + 1) (renderStr s ++ rest) = some (.jstr s, rest) := by
  have hshape : renderStr s ++ rest = '"' :: (escBody s.data ++ ('"' :: rest)) := by
    simp [renderStr]
  rw [hshape]
  simp only [parseVal]
  rw [skipWs_cons_of_not (by decide)]
  simp [parseStrChars_escBody]

/-- Every rendered value begins with a non-whitespace character that closes
    nothing. -/
theorem renderJ_head (i : Nat) (v : JValue) :
    ∃ c t, renderJ i v = c :: t ∧ wsChar c = false ∧ c ≠ ']' ∧ c ≠ cbrace := by
  cases v with
  | jnull => exact ⟨'n', _, rfl, by decide⟩
  | jbool b =>
    cases hb : b
    · exact ⟨'f', _, rfl, by decide⟩
    · exact ⟨'t', _, rfl, by decide⟩
  | jstr s => exact ⟨'"', _, rfl, by decide⟩
  | jarr es =>
    cases es
    · exact ⟨'[', _, rfl, by decide⟩
    · exact ⟨'[', _, rfl, by decide⟩
  | jobj ms =>
    cases ms
    · exact ⟨obrace, _, rfl, by decide⟩
    · exact ⟨obrace, _, rfl, by decide⟩
  | jnum n =>
    by_cases hneg : n < 0
    · refine ⟨'-', natChars n.natAbs, ?_, by decide⟩
      simp [renderJ, intChars, hneg]
    · obtain ⟨c, t, hct, hc⟩ := natChars_head n.toNat
      obtain ⟨_, _, _, _, _, _, _, hrb, _, hcb, _⟩ := digit_ne_marks hc
      exact ⟨c, t, by simp [renderJ, intChars, hneg, hct], ws_of_digit hc, hrb, hcb⟩

/-- The first element of a rendered item list surfaces after whitespace, and it
    is not a closing bracket or brace. -/
theorem renderItems_single (i : Nat) (e : JValue) :
    renderItems i [e] = indentC i ++ renderJ i e := by
  rw [renderItems]

theorem renderItems_pair (i : Nat) (e x : JValue) (xs : List JValue) :
    renderItems i (e :: x :: xs)
      = indentC i ++ renderJ i e ++ ',' :: '\n' :: renderItems i (x :: xs) := by
  rw [renderItems]
  simp

theorem renderFields_single (i : Nat) (k : String) (v : JValue) :
    renderFields i [(k, v)] = indentC i ++ (renderStr k ++ ':' :: ' ' :: renderJ i v) := by
  rw [renderFields]

theorem renderFields_pair (i : Nat) (k : String) (v : JValue) (x : String × JValue)
    (xs : List (String × JValue)) :
    renderFields i ((k, v) :: x :: xs)
      = indentC i ++ (renderStr k ++ ':' :: ' ' :: renderJ i v)
          ++ ',' :: '\n' :: renderFields i (x :: xs) := by
  rw [renderFields]
  simp

theorem skipWs_items (i : Nat) (e : JValue) (es : List JValue) (X : List Char) :
    ∃ c r2, skipWs (renderItems i (e :: es) ++ X) = c :: r2 ∧ c ≠ ']' ∧ c ≠ cbrace := by
  obtain ⟨c, t, hct, hcws, hcbr, hcbc⟩ := renderJ_head i e
  cases es with
  | nil =>
    have hsh : renderItems i [e] ++ X = indentC i ++ (c :: (t ++ X)) := by
      rw [renderItems_single, hct]
      simp
    rw [hsh, skipWs_indent, skipWs_cons_of_not hcws]
    exact ⟨c, t ++ X, rfl, hcbr, hcbc⟩
  | cons x xs =>
    have hsh : renderItems i (e :: x :: xs) ++ X
        = indentC i ++ (c :: (t ++ (',' :: '\n' :: renderItems i (x :: xs) ++ X))) := by
      rw [renderItems_pair, hct]
      simp
    rw [hsh, skipWs_indent, skipWs_cons_of_not hcws]
    exact ⟨c, _, rfl, hcbr, hcbc⟩

/-- The first member of a rendered field list surfaces after whitespace as its
    key's opening quote. -/
theorem skipWs_fields (i : Nat) (m : String × JValue) (ms : List (String × JValue))
    (X : List Char) :
    ∃ r2, skipWs (renderFields i (m :: ms) ++ X) = '"' :: r2 := by
  obtain ⟨k, v⟩ := m
  cases ms with
  | nil =>
    have hsh : renderFields i [(k, v)] ++ X
        = indentC i ++ ('"' :: (escBody k.data ++ ['"'] ++ (':' :: ' ' :: renderJ i v) ++ X)) := by
      rw [renderFields_single, renderStr]
      simp
    rw [hsh, skipWs_indent, skipWs_cons_of_not (by decide)]
    exact ⟨_, rfl⟩
  | cons x xs =>
    have hsh : renderFields i ((k, v) :: x :: xs) ++ X
        = indentC i ++ ('"' :: (escBody k.data ++ ['"'] ++ (':' :: ' ' :: renderJ i v)
            ++ (',' :: '\n' :: renderFields i (x :: xs) ++ X))) := by
      rw [renderFields_pair, renderStr]
      simp
    rw [hsh, skipWs_indent, skipWs_cons_of_not (by decide)]
    exact ⟨_, rfl⟩

/-! ## Render/parse round-trip -/

mutual
/-- Parsing a rendered value (with any non-digit-headed remainder) recovers
    exactly that value. -/
theorem rt_val : ∀ (v : JValue) (i fuel : Nat) (rest : List Char),
    numDelim rest = true → (renderJ i v).length < fuel →
    parseVal fuel (renderJ i v ++ rest) = some (v, rest)
  | .jnull, i, fuel, rest, _, hf => by
    cases fuel with
    | zero => exact absurd hf (Nat.not_lt_zero _)
    | succ f =>
      simp only [renderJ]
      simp [parseVal, skipWs, wsChar, expectLit]
  | .jbool true, i, fuel, rest, _, hf => by
    cases fuel with
    | zero => exact absurd hf (Nat.not_lt_zero _)
    | succ f =>
      simp only [renderJ]
      simp [parseVal, skipWs, wsChar, expectLit]
  | .jbool false, i, fuel, rest, _, hf => by
    cases fuel with
    | zero => exact absurd hf (Nat.not_lt_zero _)
    | succ f =>
      simp only [renderJ]
      simp [parseVal, skipWs, wsChar, expectLit]
  | .jnum n, i, fuel, rest, hr, hf => by
    cases fuel with
    | zero => exact absurd hf (Nat.not_lt_zero _)
    | succ f =>
      simp only [renderJ]
      exact parseVal_intNum n f rest hr
  | .jstr s, i, fuel, rest, _, hf => by
    cases fuel with
    | zero => exact absurd hf (Nat.not_lt_zero _)
    | succ f =>
      simp only [renderJ]
      exact parseVal_str s f rest
  | .jarr [], i, fuel, rest, _, hf => by
    cases fuel with
    | zero => exact absurd hf (Nat.not_lt_zero _)
    | succ f =>
      simp only [renderJ]
      simp [parseVal, skipWs, wsChar]
  | .jarr (e :: es), i, fuel, rest, hr, hf => by
    cases fuel with
    | zero => exact absurd hf (Nat.not_lt_zero _)
    | succ f =>
      have hsh : renderJ i (.jarr (e :: es)) ++ rest
          = '[' :: ('\n' :: (renderItems (i + 2) (e :: es)
              ++ ('\n' :: (indentC i ++ (']' :: rest))))) := by
        rw [renderJ]
        simp [List.append_assoc]
      have hlen : (renderItems (i + 2) (e :: es)).length + 1 < f := by
        have h1 : (renderJ i (.jarr (e :: es))).length
            = (renderItems (i + 2) (e :: es)).length + i + 4 := by
          rw [renderJ]
          simp [indentC]
          omega
        omega
      have key := rt_items e es (i + 2) i f rest (by omega) hlen
      obtain ⟨c, r2, hsk, hcbr, _⟩ :=
        skipWs_items (i + 2) e es ('\n' :: (indentC i ++ (']' :: rest)))
      have hsk2 : skipWs ('\n' :: (renderItems (i + 2) (e :: es)
          ++ ('\n' :: (indentC i ++ (']' :: rest))))) = c :: r2 := by
        rw [skipWs_cons_of_ws (by decide)]
        exact hsk
      rw [hsh]
      simp only [parseVal]
      rw [skipWs_cons_of_not (by decide)]
      simp [hsk2, hcbr, key]
  | .jobj [], i, fuel, rest, _, hf => by
    cases fuel with
    | zero => exact absurd hf (Nat.not_lt_zero _)
    | succ f =>
      have d1 : ¬ (obrace = 'n') := by decide
      have d2 : ¬ (obrace = 't') := by decide
      have d3 : ¬ (obrace = 'f') := by decide
      have d4 : ¬ (obrace = '"') := by decide
      have d5 : ¬ (obrace = '[') := by decide
      have dws : wsChar obrace = false := by decide
      simp only [renderJ]
      simp only [parseVal, List.cons_append, List.nil_append]
      rw [skipWs_cons_of_not dws]
      simp [d1, d2, d3, d4, d5, skipWs_cons_of_not (by decide : wsChar cbrace = false)]
  | .jobj (m :: ms), i, fuel, rest, hr, hf => by
    cases fuel with
    | zero => exact absurd hf (Nat.not_lt_zero _)
    | succ f =>
      have hsh : renderJ i (.jobj (m :: ms)) ++ rest
          = obrace :: ('\n' :: (renderFields (i + 2) (m :: ms)
              ++ ('\n' :: (indentC i ++ (cbrace :: rest))))) := by
        rw [renderJ]
        simp [List.append_assoc]
      have hlen : (renderFields (i + 2) (m :: ms)).length + 1 < f := by
        have h1 : (renderJ i (.jobj (m :: ms))).length
            = (renderFields (i + 2) (m :: ms)).length + i + 4 := by
          rw [renderJ]
          simp [indentC]
          omega
        omega
      have key := rt_fields m ms (i + 2) i f rest (by omega) hlen
      obtain ⟨r2, hsk⟩ :=
        skipWs_fields (i + 2) m ms ('\n' :: (indentC i ++ (cbrace :: rest)))
      have hsk2 : skipWs ('\n' :: (renderFields (i + 2) (m :: ms)
          ++ ('\n' :: (indentC i ++ (cbrace :: rest))))) = '"' :: r2 := by
        rw [skipWs_cons_of_ws (by decide)]
        exact hsk
      have d1 : ¬ (obrace = 'n') := by decide
      have d2 : ¬ (obrace = 't') := by decide
      have d3 : ¬ (obrace = 'f') := by decide
      have d4 : ¬ (obrace = '"') := by decide
      have d5 : ¬ (obrace = '[') := by decide
      have dq : ¬ ('"' = cbrace) := by decide
      have dws : wsChar obrace = false := by decide
      rw [hsh]
      simp only [parseVal]
      rw [skipWs_cons_of_not dws]
      simp [d1, d2, d3, d4, d5, dq, hsk2, key]
termination_by v i fuel rest hr hf => sizeOf v

/-- Parsing rendered array items (preceded by the newline the renderer emits
    after `[`, followed by the newline, closing indentation and `]`) recovers
    the item list. -/
theorem rt_items : ∀ (e : JValue) (es : List JValue) (i j fuel : Nat) (rest : List Char),
    0 < i → (renderItems i (e :: es)).length + 1 < fuel →
    parseItems fuel ('\n' :: (renderItems i (e :: es) ++ ('\n' :: (indentC j ++ (']' :: rest)))))
      = some (e :: es, rest)
  | e, [], i, j, fuel, rest, hi, hf => by
    cases fuel with
    | zero => omega
    | succ f =>
      have hlens : (renderItems i [e]).length = i + (renderJ i e).length := by
        rw [renderItems_single]
        simp [indentC]
      have hlenv : (renderJ i e).length < f := by omega
      have hv : parseVal f ('\n' :: (renderItems i [e] ++ ('\n' :: (indentC j ++ (']' :: rest)))))
          = some (e, '\n' :: (indentC j ++ (']' :: rest))) := by
        have hsh : ('\n' :: (renderItems i [e] ++ ('\n' :: (indentC j ++ (']' :: rest)))))
            = '\n' :: (indentC i ++ (renderJ i e ++ ('\n' :: (indentC j ++ (']' :: rest))))) := by
          rw [renderItems_single]
          simp [List.append_assoc]
        rw [hsh, parseVal_cons_ws (by decide), parseVal_indent]
        exact rt_val e i f _ (numDelim_cons (by decide)) hlenv
      have hsk : skipWs ('\n' :: (indentC j ++ (']' :: rest))) = ']' :: rest := by
        rw [skipWs_cons_of_ws (by decide), skipWs_indent, skipWs_cons_of_not (by decide)]
      simp only [parseItems]
      rw [hv]
      simp [hsk]
  | e, x :: xs, i, j, fuel, rest, hi, hf => by
    cases fuel with
    | zero => omega
    | succ f =>
      have hlens : (renderItems i (e :: x :: xs)).length
          = i + (renderJ i e).length + 2 + (renderItems i (x :: xs)).length := by
        rw [renderItems_pair]
        simp [indentC]
        omega
      have hlenv : (renderJ i e).length < f := by omega
      have hlenr : (renderItems i (x :: xs)).length + 1 < f := by omega
      have hv : parseVal f
          ('\n' :: (renderItems i (e :: x :: xs) ++ ('\n' :: (indentC j ++ (']' :: rest)))))
          = some (e, ',' :: '\n'
              :: (renderItems i (x :: xs) ++ ('\n' :: (indentC j ++ (']' :: rest))))) := by
        have hsh : ('\n' :: (renderItems i (e :: x :: xs)
              ++ ('\n' :: (indentC j ++ (']' :: rest)))))
            = '\n' :: (indentC i ++ (renderJ i e ++ (',' :: '\n'
                :: (renderItems i (x :: xs) ++ ('\n' :: (indentC j ++ (']' :: rest))))))) := by
          rw [renderItems_pair]
          simp [List.append_assoc]
        rw [hsh, parseVal_cons_ws (by decide), parseVal_indent]
        exact rt_val e i f _ (numDelim_cons (by decide)) hlenv
      have key := rt_items x xs i j f rest hi hlenr
      simp only [parseItems]
      rw [hv]
      simp [skipWs, wsChar, key]
termination_by e es i j fuel rest hi hf => sizeOf e + sizeOf es

/-- Parsing rendered object members (same framing as `rt_items`, closing with
    the brace) recovers the member list. -/
theorem rt_fields :
    ∀ (m : String × JValue) (ms : List (String × JValue)) (i j fuel : Nat) (rest : List Char),
    0 < i → (renderFields i (m :: ms)).length + 1 < fuel →
    parseFields fuel
        ('\n' :: (renderFields i (m :: ms) ++ ('\n' :: (indentC j ++ (cbrace :: rest)))))
      = some (m :: ms, rest)
  | (k, v), [], i, j, fuel, rest, hi, hf => by
    cases fuel with
    | zero => omega
    | succ f =>
      have hlens : (renderFields i [(k, v)]).length
          = i + (renderStr k).length + 2 + (renderJ i v).length := by
        rw [renderFields_single]
        simp [indentC]
        omega
      have hlenv : (renderJ i v).length < f := by omega
      have hsk : skipWs ('\n' :: (renderFields i [(k, v)]
            ++ ('\n' :: (indentC j ++ (cbrace :: rest)))))
          = '"' :: (escBody k.data
              ++ ('"' :: (':' :: ' ' :: (renderJ i v
                  ++ ('\n' :: (indentC j ++ (cbrace :: rest))))))) := by
        rw [skipWs_cons_of_ws (by decide)]
        have hsh : renderFields i [(k, v)] ++ ('\n' :: (indentC j ++ (cbrace :: rest)))
            = indentC i ++ ('"' :: (escBody k.data
                ++ ('"' :: (':' :: ' ' :: (renderJ i v
                    ++ ('\n' :: (indentC j ++ (cbrace :: rest)))))))) := by
          rw [renderFields_single, renderStr]
          simp [List.append_assoc]
        rw [hsh, skipWs_indent, skipWs_cons_of_not (by decide)]
      have hval : parseVal f (' ' :: (renderJ i v ++ ('\n' :: (indentC j ++ (cbrace :: rest)))))
          = some (v, '\n' :: (indentC j ++ (cbrace :: rest))) := by
        rw [parseVal_cons_ws (by decide)]
        exact rt_val v i f _ (numDelim_cons (by decide)) hlenv
      have hsk4 : skipWs (indentC j ++ (cbrace :: rest)) = cbrace :: rest := by
        rw [skipWs_indent, skipWs_cons_of_not (by decide : wsChar cbrace = false)]
      have dcb : ¬ (cbrace = ',') := by decide
      have hk : String.mk k.data = k := rfl
      simp only [parseFields]
      rw [hsk]
      simp [parseStrChars_escBody, skipWs, wsChar, hval, hsk4, dcb, hk]
  | (k, v), x :: xs, i, j, fuel, rest, hi, hf => by
    cases fuel with
    | zero => omega
    | succ f =>
      have hlens : (renderFields i ((k, v) :: x :: xs)).length
          = i + (renderStr k).length + 2 + (renderJ i v).length
              + 2 + (renderFields i (x :: xs)).length := by
        rw [renderFields_pair]
        simp [indentC]
        omega
      have hlenv : (renderJ i v).length < f := by omega
      have hlenr : (renderFields i (x :: xs)).length + 1 < f := by omega
      have hsk : skipWs ('\n' :: (renderFields i ((k, v) :: x :: xs)
            ++ ('\n' :: (indentC j ++ (cbrace :: rest)))))
          = '"' :: (escBody k.data
              ++ ('"' :: (':' :: ' ' :: (renderJ i v
                  ++ (',' :: '\n' :: (renderFields i (x :: xs)
                      ++ ('\n' :: (indentC j ++ (cbrace :: rest))))))))) := by
        rw [skipWs_cons_of_ws (by decide)]
        have hsh : renderFields i ((k, v) :: x :: xs)
              ++ ('\n' :: (indentC j ++ (cbrace :: rest)))
            = indentC i ++ ('"' :: (escBody k.data
                ++ ('"' :: (':' :: ' ' :: (renderJ i v
                    ++ (',' :: '\n' :: (renderFields i (x :: xs)
                        ++ ('\n' :: (indentC j ++ (cbrace :: rest)))))))))) := by
          rw [renderFields_pair, renderStr]
          simp [List.append_assoc]
        rw [hsh, skipWs_indent, skipWs_cons_of_not (by decide)]
      have hval : parseVal f (' ' :: (renderJ i v ++ (',' :: '\n'
            :: (renderFields i (x :: xs) ++ ('\n' :: (indentC j ++ (cbrace :: rest)))))))
          = some (v, ',' :: '\n'
              :: (renderFields i (x :: xs) ++ ('\n' :: (indentC j ++ (cbrace :: rest))))) := by
        rw [parseVal_cons_ws (by decide)]
        exact rt_val v i f _ (numDelim_cons (by decide)) hlenv
      have key := rt_fields x xs i j f rest hi hlenr
      simp only [parseFields]
      rw [hsk]
      simp [parseStrChars_escBody, skipWs, wsChar, hval, key]
termination_by m ms i j fuel rest hi hf => sizeOf m + sizeOf ms
end

/-- `JSON.parse` inverts `JSON.stringify(v, null, 2)` for every value. -/
theorem parseJson_render (v : JValue) : parseJson (String.mk (renderJ 0 v)) = some v := by
  have hlen : (renderJ 0 v).length < 2 * (renderJ 0 v).length + 4 := by omega
  have h := rt_val v 0 (2 * (renderJ 0 v).length + 4) [] rfl hlen
  rw [List.append_nil] at h
  have hd : (String.mk (renderJ 0 v)).data = renderJ 0 v := rfl
  simp [parseJson, hd, h, skipWs]

theorem decodeBook_bookToJson (b : Book) : decodeBook (bookToJson b) = some b := by
  cases b
  simp [decodeBook, bookToJson]

theorem decodeBooks_booksToJson (bs : List Book) : decodeBooks (booksToJson bs) = some bs := by
  suffices h : decodeBookList (bs.map bookToJson) = some bs by
    simpa [booksToJson, decodeBooks] using h
  induction bs with
  | nil => simp [decodeBookList]
  | cons b t ih => simp [decodeBookList, decodeBook_bookToJson, ih]

/-- What `writeBooksFile` persists parses back to the exact encoded value. -/
theorem parse_writeBooksFile (bs : List Book) :
    parseJson (writeBooksFile bs) = some (booksToJson bs) :=
  parseJson_render (booksToJson bs)

/-- Store-level round-trip: loading right after saving yields the saved
    collection's encoding, with the file unchanged. -/
theorem readBooksFile_write (bs : List Book) :
    readBooksFile (.content (writeBooksFile bs))
      = (.ok (booksToJson bs), .content (writeBooksFile bs)) := by
  simp [readBooksFile, parse_writeBooksFile]

/-! ## Handler support lemmas -/

theorem maxId_eq (bs : List Book) : maxId bs = (bs.map (fun b => b.id)).foldl max 0 := by
  rw [List.foldl_map]
  unfold maxId
  congr 1
  funext m b
  by_cases h : b.id = 0 <;> simp [h]

theorem foldl_max_init : ∀ (l : List Int) (a : Int), a ≤ l.foldl max a
  | [], a => le_refl a
  | x :: t, a => le_trans (le_max_left a x) (foldl_max_init t (max a x))

theorem foldl_max_mem : ∀ (l : List Int) (a x : Int), x ∈ l → x ≤ l.foldl max a
  | [], _, x, h => absurd h (List.not_mem_nil x)
  | y :: t, a, x, h => by
    rcases List.mem_cons.mp h with rfl | h2
    · exact le_trans (le_max_right a x) (foldl_max_init t (max a x))
    · exact foldl_max_mem t (max a y) x h2

theorem maxId_nonneg (bs : List Book) : 0 ≤ maxId bs := by
  rw [maxId_eq]
  exact foldl_max_init _ 0

theorem id_le_maxId {bs : List Book} {b : Book} (h : b ∈ bs) : b.id ≤ maxId bs := by
  rw [maxId_eq]
  exact foldl_max_mem _ 0 b.id (List.mem_map_of_mem _ h)

theorem strFalsy_eq_false {o : Option String} :
    strFalsy o = false ↔ ∃ t, o = some t ∧ t ≠ "" := by
  cases o with
  | none => simp [strFalsy]
  | some s => by_cases h : s = "" <;> simp [strFalsy, h]

/-- The create handler on a payload passing validation (app.js:95-106). -/
theorem postBooks_valid (bs : List Book) (p : CreatePayload) (h : validCreate p) :
    postBooks bs p
      = ⟨201,
          .record ⟨maxId bs + 1, p.title.getD "", p.author.getD "", availOrDefault p.available⟩,
          bs ++ [⟨maxId bs + 1, p.title.getD "", p.author.getD "", availOrDefault p.available⟩],
          [.load, .save]⟩ := by
  obtain ⟨h1, h2⟩ := h
  simp [postBooks, h1, h2]

/-- The id sequence `1..k`. -/
def posIds (k : Nat) : List Int := (List.range k).map (fun j => ((j : Int) + 1))

theorem posIds_succ (k : Nat) : posIds (k + 1) = posIds k ++ [(k : Int) + 1] := by
  simp [posIds, List.range_succ]

theorem foldl_max_posIds : ∀ k : Nat, (posIds k).foldl max 0 = (k : Int)
  | 0 => rfl
  | k + 1 => by
    rw [posIds_succ, List.foldl_append, foldl_max_posIds k]
    simp

theorem maxId_of_posIds {k : Nat} {bs : List Book}
    (h : bs.map (fun b => b.id) = posIds k) : maxId bs = (k : Int) := by
  rw [maxId_eq, h, foldl_max_posIds]

/-- Sequential creation starting from ids `1..k` extends them to
    `1..k+N`, one per payload. -/
theorem createSeq_ids_from :
    ∀ (ps : List CreatePayload) (bs : List Book) (k : Nat),
      (∀ p ∈ ps, validCreate p) →
      bs.map (fun b => b.id) = posIds k →
      (createSeq bs ps).map (fun b => b.id) = posIds (k + ps.length)
  | [], bs, k, _, hids => by simpa [createSeq] using hids
  | p :: ps, bs, k, hv, hids => by
    have hvp : validCreate p := hv p (by simp)
    have hstep : (postBooks bs p).books.map (fun b => b.id) = posIds (k + 1) := by
      rw [postBooks_valid bs p hvp, posIds_succ]
      simp [hids, maxId_of_posIds hids]
    have hrec := createSeq_ids_from ps (postBooks bs p).books (k + 1)
        (fun q hq => hv q (by simp [hq])) hstep
    have hcs : createSeq bs (p :: ps) = createSeq (postBooks bs p).books ps := by
      simp [createSeq]
    have harr : k + (p :: ps).length = (k + 1) + ps.length := by
      simp
      omega
    rw [hcs, harr]
    exact hrec

theorem set_get_self {α : Type} : ∀ (l : List α) (n : Nat) (h : n < l.length),
    l.set n (l.get ⟨n, h⟩) = l
  | _ :: _, 0, _ => rfl
  | a :: t, n + 1, h =>
    congrArg (fun z => a :: z) (set_get_self t n (Nat.lt_of_succ_lt_succ h))

/-- A collection satisfying the invariant, extended by create, still
    satisfies it; the old ids are untouched and the new id is `maxId + 1`. -/
theorem collOk_create {bs : List Book} {p : CreatePayload} (hC : CollOk bs)
    (hv : validCreate p) :
    CollOk (postBooks bs p).books ∧
      (postBooks bs p).books.map (fun b => b.id)
        = bs.map (fun b => b.id) ++ [maxId bs + 1] := by
  obtain ⟨hall, hnd⟩ := hC
  obtain ⟨t, hto, htne⟩ := strFalsy_eq_false.mp hv.1
  obtain ⟨a, hao, hane⟩ := strFalsy_eq_false.mp hv.2
  rw [postBooks_valid bs p hv]
  have hm : ([(⟨maxId bs + 1, p.title.getD "", p.author.getD "",
      availOrDefault p.available⟩ : Book)]).map (fun b => b.id) = [maxId bs + 1] := rfl
  refine ⟨⟨?_, ?_⟩, by simp⟩
  · intro b hb
    rcases List.mem_append.mp hb with hb | hb
    · exact hall b hb
    · rcases List.mem_singleton.mp hb with rfl
      refine ⟨?_, ?_, ?_⟩
      · show (0 : Int) < maxId bs + 1
        have := maxId_nonneg bs
        omega
      · show p.title.getD "" ≠ ""
        simpa [hto] using htne
      · show p.author.getD "" ≠ ""
        simpa [hao] using hane
  · rw [List.map_append, hm]
    refine List.Nodup.append hnd (List.nodup_singleton _) ?_
    intro x hx hy
    rcases List.mem_singleton.mp hy with rfl
    obtain ⟨b, hb, hbid⟩ := List.mem_map.mp hx
    have := id_le_maxId hb
    omega

/-! ## Update/delete characterizations -/

theorem putBooks_badId {bs : List Book} {idn : JsNum} {p : UpdatePayload}
    (h : posIntOf idn = none) :
    putBooks bs idn p = ⟨400, .errMsg "Invalid id", bs, []⟩ := by
  simp [putBooks, h]

theorem deleteBooks_badId {bs : List Book} {idn : JsNum} (h : posIntOf idn = none) :
    deleteBooks bs idn = ⟨400, .errMsg "Invalid id", bs, []⟩ := by
  simp [deleteBooks, h]

theorem putBooks_emptyBody {bs : List Book} {n : Int} (hn : 0 < n) {p : UpdatePayload}
    (he : p.title = none ∧ p.author = none ∧ p.available = none) :
    putBooks bs (.int n) p
      = ⟨400, .errMsg "Provide at least one of title, author, available", bs, []⟩ := by
  simp [putBooks, posIntOf, hn, he]

theorem putBooks_notFound {bs : List Book} {n : Int} (hn : 0 < n) {p : UpdatePayload}
    (hne : ¬(p.title = none ∧ p.author = none ∧ p.available = none))
    (hf : bs.findIdx? (fun b => b.id = n) = none) :
    putBooks bs (.int n) p = ⟨404, .errMsg "Book not found", bs, [.load]⟩ := by
  simp only [putBooks, posIntOf, if_pos hn]
  rw [if_neg hne]
  split
  · rfl
  · rename_i idx heq
    rw [hf] at heq
    cases heq

theorem deleteBooks_notFound {bs : List Book} {n : Int} (hn : 0 < n)
    (hf : bs.findIdx? (fun b => b.id = n) = none) :
    deleteBooks bs (.int n) = ⟨404, .errMsg "Book not found", bs, [.load]⟩ := by
  simp only [deleteBooks, posIntOf, if_pos hn]
  split
  · rfl
  · rename_i idx heq
    rw [hf] at heq
    cases heq

theorem putBooks_found {bs : List Book} {n : Int} (hn : 0 < n) {p : UpdatePayload}
    (hne : ¬(p.title = none ∧ p.author = none ∧ p.available = none))
    {idx : Nat} (hf : bs.findIdx? (fun b => b.id = n) = some idx) (hlt : idx < bs.length) :
    putBooks bs (.int n) p
      = ⟨200, .record (updBook (bs.get ⟨idx, hlt⟩) p),
          bs.set idx (updBook (bs.get ⟨idx, hlt⟩) p), [.load, .save]⟩ := by
  simp only [putBooks, posIntOf, if_pos hn]
  rw [if_neg hne]
  split
  · rename_i heq
    rw [hf] at heq
    cases heq
  · rename_i idx2 heq
    rw [hf] at heq
    injection heq with h2
    subst h2
    rfl

theorem deleteBooks_found {bs : List Book} {n : Int} (hn : 0 < n)
    {idx : Nat} (hf : bs.findIdx? (fun b => b.id = n) = some idx) (hlt : idx < bs.length) :
    deleteBooks bs (.int n)
      = ⟨200, .deleted "Deleted" (bs.get ⟨idx, hlt⟩), bs.eraseIdx idx, [.load, .save]⟩ := by
  simp only [deleteBooks, posIntOf, if_pos hn]
  split
  · rename_i heq
    rw [hf] at heq
    cases heq
  · rename_i idx2 heq
    rw [hf] at heq
    injection heq with h2
    subst h2
    rfl

/-- Updating at an index leaves the id sequence untouched. -/
theorem map_id_set_upd : ∀ (l : List Book) (n : Nat) (h : n < l.length) (p : UpdatePayload),
    (l.set n (updBook (l.get ⟨n, h⟩) p)).map (fun b => b.id) = l.map (fun b => b.id)
  | a :: t, 0, _, p => by simp [updBook]
  | a :: t, n + 1, h, p => by
    simp only [List.set, List.map_cons]
    rw [show ((a :: t).get ⟨n + 1, h⟩) = t.get ⟨n, Nat.lt_of_succ_lt_succ h⟩ from rfl,
        map_id_set_upd t n (Nat.lt_of_succ_lt_succ h) p]

/-- Update preserves the invariant when the supplied text fields are not
    empty, and never changes any id. -/
theorem collOk_update {bs : List Book} (hC : CollOk bs) (idn : JsNum) (p : UpdatePayload)
    (ht : p.title ≠ some "") (ha : p.author ≠ some "") :
    CollOk (putBooks bs idn p).books ∧
      (putBooks bs idn p).books.map (fun b => b.id) = bs.map (fun b => b.id) := by
  rcases hpos : posIntOf idn with _ | n
  · rw [putBooks_badId hpos]
    exact ⟨hC, rfl⟩
  · have hn : 0 < n := by
      rcases idn with _ | m
      · simp [posIntOf] at hpos
      · simp only [posIntOf] at hpos
        by_cases hm : 0 < m
        · simp [hm] at hpos
          omega
        · simp [hm] at hpos
    have hidn : idn = .int n := by
      rcases idn with _ | m
      · simp [posIntOf] at hpos
      · simp only [posIntOf] at hpos
        by_cases hm : 0 < m
        · simp [hm] at hpos
          rw [hpos]
        · simp [hm] at hpos
    subst hidn
    by_cases hne : (p.title = none ∧ p.author = none ∧ p.available = none)
    · rw [putBooks_emptyBody hn hne]
      exact ⟨hC, rfl⟩
    · rcases hfind : bs.findIdx? (fun b => b.id = n) with _ | idx
      · rw [putBooks_notFound hn hne hfind]
        exact ⟨hC, rfl⟩
      · have hlt := findIdx?_lt_length hfind
        rw [putBooks_found hn hne hfind hlt]
        have hmap := map_id_set_upd bs idx hlt p
        refine ⟨⟨?_, ?_⟩, hmap⟩
        · intro b hb
          rcases List.mem_or_eq_of_mem_set hb with hb | rfl
          · exact hC.1 b hb
          · have hmem := List.get_mem bs idx hlt
            obtain ⟨hid, htit, haut⟩ := hC.1 _ hmem
            refine ⟨hid, ?_, ?_⟩
            · rcases hto : p.title with _ | t
              · simpa [updBook, hto] using htit
              · have : t ≠ "" := by
                  intro hteq
                  exact ht (by rw [hto, hteq])
                simpa [updBook, hto] using this
            · rcases hao : p.author with _ | a
              · simpa [updBook, hao] using haut
              · have : a ≠ "" := by
                  intro haeq
                  exact ha (by rw [hao, haeq])
                simpa [updBook, hao] using this
        · rw [hmap]
          exact hC.2

/-- Delete preserves the invariant (the result is a sublist). -/
theorem collOk_delete {bs : List Book} (hC : CollOk bs) (idn : JsNum) :
    CollOk (deleteBooks bs idn).books := by
  rcases hpos : posIntOf idn with _ | n
  · rw [deleteBooks_badId hpos]
    exact hC
  · have hn : 0 < n := by
      rcases idn with _ | m
      · simp [posIntOf] at hpos
      · simp only [posIntOf] at hpos
        by_cases hm : 0 < m
        · simp [hm] at hpos
          omega
        · simp [hm] at hpos
    have hidn : idn = .int n := by
      rcases idn with _ | m
      · simp [posIntOf] at hpos
      · simp only [posIntOf] at hpos
        by_cases hm : 0 < m
        · simp [hm] at hpos
          rw [hpos]
        · simp [hm] at hpos
    subst hidn
    rcases hfind : bs.findIdx? (fun b => b.id = n) with _ | idx
    · rw [deleteBooks_notFound hn hfind]
      exact hC
    · have hlt := findIdx?_lt_length hfind
      rw [deleteBooks_found hn hfind hlt]
      have hsub := List.eraseIdx_sublist bs idx
      refine ⟨fun b hb => hC.1 b (hsub.mem hb), ?_⟩
      exact ((hsub.map (fun b => b.id)).nodup hC.2)

/-! ## Queue trace lemmas -/

theorem enqueueWrite_attempts (q : Bool) (j : WriteJob) :
    1 ≤ (enqueueWrite q j).2 ∧ (enqueueWrite q j).2 ≤ 2 := by
  cases q <;> cases hj : j.first <;> simp [enqueueWrite, hj]

theorem queueTraceFrom_lb : ∀ (js : List WriteJob) (q : Bool) (i x : Nat),
    x ∈ queueTraceFrom q i js → i ≤ x
  | [], _, _, x, h => absurd h (List.not_mem_nil x)
  | j :: js, q, i, x, h => by
    rw [queueTraceFrom] at h
    rcases List.mem_append.mp h with h | h
    · rw [List.eq_of_mem_replicate h]
    · have := queueTraceFrom_lb js (enqueueWrite q j).1 (i + 1) x h
      omega

theorem pairwise_le_replicate (n i : Nat) :
    List.Pairwise (fun a b => a ≤ b) (List.replicate n i) := by
  induction n with
  | zero => exact List.Pairwise.nil
  | succ m ih =>
    rw [List.replicate_succ]
    refine List.Pairwise.cons (fun y hy => ?_) ih
    rw [List.eq_of_mem_replicate hy]

theorem queueTraceFrom_sorted : ∀ (js : List WriteJob) (q : Bool) (i : Nat),
    List.Pairwise (fun a b => a ≤ b) (queueTraceFrom q i js)
  | [], _, _ => List.Pairwise.nil
  | j :: js, q, i => by
    rw [queueTraceFrom]
    apply List.pairwise_append.mpr
    refine ⟨pairwise_le_replicate _ i, queueTraceFrom_sorted js _ (i + 1), ?_⟩
    intro a ha b hb
    rw [List.eq_of_mem_replicate ha]
    have := queueTraceFrom_lb js _ (i + 1) b hb
    omega

theorem queueTraceFrom_mem : ∀ (js : List WriteJob) (q : Bool) (i k : Nat),
    k < js.length → (i + k) ∈ queueTraceFrom q i js
  | [], _, _, k, hk => absurd hk (by simp)
  | j :: js, q, i, k, hk => by
    rw [queueTraceFrom]
    cases k with
    | zero =>
      apply List.mem_append.mpr
      left
      apply List.mem_replicate.mpr
      have := (enqueueWrite_attempts q j).1
      exact ⟨by omega, by omega⟩
    | succ m =>
      apply List.mem_append.mpr
      right
      have := queueTraceFrom_mem js (enqueueWrite q j).1 (i + 1) m (by simpa using hk)
      have harr : i + (m + 1) = (i + 1) + m := by omega
      rw [harr]
      exact this

/-! ## The claims -/

/-- Claim C1, counterexample: in the history that creates two records (ids 1
    and 2), deletes the record holding the current maximum id (2), then
    creates again, the new record is assigned id 2 — an id that had already
    been assigned — so the new id is not strictly greater than every
    previously assigned id (2 > 2 fails). Deleted ids are reused. -/
theorem c1_counterexample :
    ((postBooks (deleteBooks (createSeq []
        [⟨some "A", some "a", none⟩, ⟨some "B", some "b", none⟩]) (.int 2)).books
        ⟨some "C", some "c", none⟩).books).map (fun b => b.id) = [1, 2]
    ∧ ¬ ((2 : Int) > (2 : Int)) := by
  constructor
  · decide
  · decide

/-- Claim C1 (amended): creating N records sequentially into an initially
    empty collection yields ids 1..N in creation order; and after any
    operations, a create assigns `max(existing ids, 0) + 1`, which is strictly
    greater than every id still present in the collection at creation time —
    but not necessarily greater than previously assigned ids of deleted
    records, which may be reused. -/
theorem c1_amended :
    (∀ ps : List CreatePayload, (∀ p ∈ ps, validCreate p) →
        (createSeq [] ps).map (fun b => b.id) = posIds ps.length)
    ∧ (∀ (bs : List Book) (p : CreatePayload), (∀ b ∈ bs, 0 < b.id) → validCreate p →
        (postBooks bs p).status = 201
        ∧ (postBooks bs p).books.map (fun b => b.id) = bs.map (fun b => b.id) ++ [maxId bs + 1]
        ∧ ∀ b ∈ bs, b.id < maxId bs + 1) := by
  constructor
  · intro ps hv
    have h := createSeq_ids_from ps [] 0 hv rfl
    simpa using h
  · intro bs p hpos hv
    rw [postBooks_valid bs p hv]
    refine ⟨rfl, by simp, ?_⟩
    intro b hb
    have := id_le_maxId hb
    omega

/-- Claim C1, witness instance. -/
theorem c1_witness :
    (createSeq [] [⟨some "X", some "Y", none⟩, ⟨some "Z", some "W", none⟩]).map (fun b => b.id)
      = posIds 2 :=
  c1_amended.1 [⟨some "X", some "Y", none⟩, ⟨some "Z", some "W", none⟩] (by decide)

/-- Claim C2: saving any collection of book records with the store's
    `writeBooksFile` and loading the result with `readBooksFile` succeeds,
    yields exactly the encoding of that collection (the file unchanged), and
    the encoding decodes back to the same ordered records — same ids, titles,
    authors and availability, in the same order. -/
theorem c2_roundtrip (bs : List Book) :
    readBooksFile (.content (writeBooksFile bs))
      = (.ok (booksToJson bs), .content (writeBooksFile bs))
    ∧ decodeBooks (booksToJson bs) = some bs :=
  ⟨readBooksFile_write bs, decodeBooks_booksToJson bs⟩

/-- Claim C3: the promise write queue executes every enqueued save, one at a
    time, in submission order: the execution trace lists job indices in
    non-decreasing order (each job's executions are contiguous and all of an
    earlier job's executions precede a later job's), and every submitted job
    index occurs in the trace no matter which writes fail — a failing write
    neither blocks nor poisons the queue. -/
theorem c3_write_queue (jobs : List WriteJob) :
    List.Pairwise (fun a b => a ≤ b) (queueTrace jobs)
    ∧ ∀ k, k < jobs.length → k ∈ queueTrace jobs := by
  constructor
  · exact queueTraceFrom_sorted jobs true 0
  · intro k hk
    have h := queueTraceFrom_mem jobs true 0 k hk
    simpa using h

/-- Claim C3, witness instance: even after a job whose write fails twice, the
    later job still executes. -/
theorem c3_witness :
    List.Pairwise (fun a b => a ≤ b) (queueTrace [⟨false, false⟩, ⟨true, true⟩])
    ∧ (1 : Nat) ∈ queueTrace [⟨false, false⟩, ⟨true, true⟩] :=
  ⟨(c3_write_queue [⟨false, false⟩, ⟨true, true⟩]).1,
   (c3_write_queue [⟨false, false⟩, ⟨true, true⟩]).2 1 (by decide)⟩

/-- Claim C4, counterexample: when the queue chain is settled fulfilled and a
    save's write rejects on its first attempt, `enqueueWrite`'s
    `.catch(() => fn())` handler runs the write a second time — the failing
    save's underlying storage action is attempted twice, not exactly once. -/
theorem c4_counterexample :
    (enqueueWrite true ⟨false, true⟩).2 = 2
    ∧ (enqueueWrite true ⟨false, true⟩).2 ≠ 1 := by
  decide

/-- Claim C4 (amended): a failing load (non-`ENOENT` I/O error) is propagated
    without retry and reported as 500 "Internal server error"; a failing save
    is re-attempted exactly once by the queue's catch handler (two attempts
    happen precisely when the chain was fulfilled and the first attempt
    failed; never more than two), after which the failure propagates. -/
theorem c4_amended :
    (∀ (q : Bool) (j : WriteJob),
        1 ≤ (enqueueWrite q j).2 ∧ (enqueueWrite q j).2 ≤ 2
        ∧ ((enqueueWrite q j).2 = 2 ↔ (q = true ∧ j.first = false)))
    ∧ readBooksFile .ioError = (.error .other, .ioError)
    ∧ errorHandler .other = (500, "Internal server error")
    ∧ getBooks .ioError = (500, .errMsg "Internal server error", .ioError) := by
  refine ⟨?_, rfl, rfl, rfl⟩
  intro q j
  cases q <;> cases hj : j.first <;> simp [enqueueWrite, hj]

/-- Claim C5, counterexample: updating book 1 with an empty title succeeds
    (200) and stores the empty title, so update does not preserve the
    "title is non-empty text" invariant. -/
theorem c5_counterexample :
    (putBooks SAMPLE_BOOKS (.int 1) ⟨some "", none, none⟩).status = 200
    ∧ (putBooks SAMPLE_BOOKS (.int 1) ⟨some "", none, none⟩).books.map (fun b => b.title)
        = ["", "Deep Work"]
    ∧ ¬ CollOk (putBooks SAMPLE_BOOKS (.int 1) ⟨some "", none, none⟩).books := by
  refine ⟨by decide, by decide, by decide⟩

/-- Claim C5 (amended): create (on a payload passing its validation, which
    rejects empty text) and delete preserve the full invariant — positive,
    pairwise-distinct, immutable ids and non-empty title/author — and update
    preserves it provided the supplied title/author are not the empty string;
    update never changes any id. Supplying an empty title or author to update
    is accepted verbatim and breaks non-emptiness (see the counterexample). -/
theorem c5_amended :
    (∀ (bs : List Book) (p : CreatePayload), CollOk bs → validCreate p →
        CollOk (postBooks bs p).books
        ∧ (postBooks bs p).books.map (fun b => b.id) = bs.map (fun b => b.id) ++ [maxId bs + 1])
    ∧ (∀ (bs : List Book) (idn : JsNum) (p : UpdatePayload), CollOk bs →
        p.title ≠ some "" → p.author ≠ some "" →
        CollOk (putBooks bs idn p).books
        ∧ (putBooks bs idn p).books.map (fun b => b.id) = bs.map (fun b => b.id))
    ∧ (∀ (bs : List Book) (idn : JsNum), CollOk bs → CollOk (deleteBooks bs idn).books) :=
  ⟨fun _ _ hC hv => collOk_create hC hv,
   fun _ idn p hC ht ha => collOk_update hC idn p ht ha,
   fun _ idn hC => collOk_delete hC idn⟩

/-- Claim C5, witness instance. -/
theorem c5_witness :
    CollOk (postBooks SAMPLE_BOOKS ⟨some "X", some "Y", none⟩).books :=
  (c5_amended.1 SAMPLE_BOOKS ⟨some "X", some "Y", none⟩ (by decide) (by decide)).1

/-- Claim C6: loading when no persisted file exists writes a file holding
    exactly the two fixed sample records (ids 1 and 2) and returns them; a
    second independent load returns the same two records (idempotent
    seeding); and, at the reference level, the returned records are fresh
    copies — their addresses are disjoint from the `SAMPLE_BOOKS` constant's
    addresses, so overwriting any returned record afterwards changes neither
    the values `SAMPLE_BOOKS` holds nor the two records a later load
    returns. -/
theorem c6_seeding :
    readBooksFile .missing
      = (.ok (booksToJson SAMPLE_BOOKS), .content (writeBooksFile SAMPLE_BOOKS))
    ∧ decodeBooks (booksToJson SAMPLE_BOOKS) = some SAMPLE_BOOKS
    ∧ SAMPLE_BOOKS.map (fun b => b.id) = [1, 2]
    ∧ readBooksFile (.content (writeBooksFile SAMPLE_BOOKS))
        = (.ok (booksToJson SAMPLE_BOOKS), .content (writeBooksFile SAMPLE_BOOKS))
    ∧ (readBooksFileRef initRefState).1 = [2, 3]
    ∧ (∀ a ∈ (readBooksFileRef initRefState).1,
        a ∉ (readBooksFileRef initRefState).2.sampleArr)
    ∧ heapVals (readBooksFileRef initRefState).2 (readBooksFileRef initRefState).1
        = SAMPLE_BOOKS
    ∧ (∀ a ∈ (readBooksFileRef initRefState).1, ∀ b : Book,
        heapVals (mutateAt (readBooksFileRef initRefState).2 a b)
            (mutateAt (readBooksFileRef initRefState).2 a b).sampleArr = SAMPLE_BOOKS
        ∧ heapVals (readBooksFileRef (mutateAt (readBooksFileRef initRefState).2 a b)).2
            (readBooksFileRef (mutateAt (readBooksFileRef initRefState).2 a b)).1
            = SAMPLE_BOOKS) := by
  refine ⟨rfl, decodeBooks_booksToJson SAMPLE_BOOKS, rfl,
    readBooksFile_write SAMPLE_BOOKS, rfl, by decide, rfl, ?_⟩
  intro a ha b
  have hlist : (readBooksFileRef initRefState).1 = [2, 3] := rfl
  rw [hlist] at ha
  simp only [List.mem_cons, List.mem_singleton] at ha
  rcases ha with rfl | ha
  · exact ⟨rfl, rfl⟩
  · rcases ha with rfl | ha
    · exact ⟨rfl, rfl⟩
    · exact absurd ha (List.not_mem_nil _)

/-- Claim C6, witness instance: overwriting the first returned copy leaves the
    sample constant's records intact. -/
theorem c6_witness :
    heapVals (mutateAt (readBooksFileRef initRefState).2 2 ⟨99, "z", "w", true⟩)
        (mutateAt (readBooksFileRef initRefState).2 2 ⟨99, "z", "w", true⟩).sampleArr
      = SAMPLE_BOOKS :=
  (c6_seeding.2.2.2.2.2.2.2 2 (by decide) ⟨99, "z", "w", true⟩).1

/-- Claim C7, counterexample: the file content is valid JSON but not a
    collection of book records (an empty object), yet the load signals no
    corrupt-data condition — `GET /books` answers 200 with the raw value
    rather than a 5xx. The distinct corrupt signal exists only for content
    that fails to parse as JSON at all. -/
theorem c7_counterexample :
    parseJson "\x7b\x7d" = some (.jobj [])
    ∧ decodeBooks (.jobj []) = none
    ∧ getBooks (.content "\x7b\x7d") = (200, .raw (.jobj []), .content "\x7b\x7d")
    ∧ (getBooks (.content "\x7b\x7d")).1 ≠ 500 := by
  refine ⟨rfl, rfl, rfl, by decide⟩

/-- Claim C7 (amended): for a file whose contents do not parse as JSON, the
    load signals `SyntaxError` — a condition distinct from the missing-file
    class, never triggering seeding and leaving the file unrepaired — and the
    service reports it as 500 with the distinguishing message "Books file
    contains invalid JSON". Content that is valid JSON but not a record
    collection is returned as-is with 200 (see the counterexample). -/
theorem c7_amended (raw : String) (h : parseJson raw = none) :
    readBooksFile (.content raw) = (.error .syntaxError, .content raw)
    ∧ getBooks (.content raw) = (500, .errMsg "Books file contains invalid JSON", .content raw)
    ∧ JsErr.syntaxError ≠ JsErr.enoent
    ∧ errorHandler .syntaxError ≠ errorHandler .enoent
    ∧ (errorHandler .syntaxError).1 = 500 := by
  have h1 : readBooksFile (.content raw) = (.error .syntaxError, .content raw) := by
    simp [readBooksFile, h]
  refine ⟨h1, ?_, by decide, by decide, rfl⟩
  simp [getBooks, h1, errorHandler]

/-- Claim C7, witness instance: an unterminated brace is corrupt, reported
    distinctly, without repairing the file. -/
theorem c7_witness :
    readBooksFile (.content "\x7b") = (.error .syntaxError, .content "\x7b") :=
  (c7_amended "\x7b" rfl).1

/-- Claim C8: a successful partial update overwrites exactly the supplied
    fields — absent fields keep their prior values, a supplied `available` is
    coerced through `Boolean` — the record's id is unchanged, and every other
    record keeps its value and its position. -/
theorem c8_partial_update (bs : List Book) (n : Int) (p : UpdatePayload) (idx : Nat)
    (hn : 0 < n)
    (hne : ¬(p.title = none ∧ p.author = none ∧ p.available = none))
    (hf : bs.findIdx? (fun b => b.id = n) = some idx) (hlt : idx < bs.length) :
    (putBooks bs (.int n) p).status = 200
    ∧ (putBooks bs (.int n) p).books = bs.set idx (updBook (bs.get ⟨idx, hlt⟩) p)
    ∧ (updBook (bs.get ⟨idx, hlt⟩) p).id = (bs.get ⟨idx, hlt⟩).id
    ∧ (p.title = none → (updBook (bs.get ⟨idx, hlt⟩) p).title = (bs.get ⟨idx, hlt⟩).title)
    ∧ (∀ t, p.title = some t → (updBook (bs.get ⟨idx, hlt⟩) p).title = t)
    ∧ (p.author = none → (updBook (bs.get ⟨idx, hlt⟩) p).author = (bs.get ⟨idx, hlt⟩).author)
    ∧ (∀ a, p.author = some a → (updBook (bs.get ⟨idx, hlt⟩) p).author = a)
    ∧ (p.available = none
        → (updBook (bs.get ⟨idx, hlt⟩) p).available = (bs.get ⟨idx, hlt⟩).available)
    ∧ (∀ v, p.available = some v → (updBook (bs.get ⟨idx, hlt⟩) p).available = jsTruthy v)
    ∧ (∀ j, j ≠ idx → ((putBooks bs (.int n) p).books)[j]? = bs[j]?) := by
  rw [putBooks_found hn hne hf hlt]
  refine ⟨rfl, rfl, rfl, ?_, ?_, ?_, ?_, ?_, ?_, ?_⟩
  · intro h
    simp [updBook, h]
  · intro t h
    simp [updBook, h]
  · intro h
    simp [updBook, h]
  · intro a h
    simp [updBook, h]
  · intro h
    simp [updBook, h]
  · intro v h
    simp [updBook, h]
  · intro j hj
    exact List.getElem?_set_ne (Ne.symm hj)

/-- Claim C8, witness instance: updating only `available` of book 2. -/
theorem c8_witness :
    (putBooks SAMPLE_BOOKS (.int 2) ⟨none, none, some (.vNum 1)⟩).status = 200 :=
  (c8_partial_update SAMPLE_BOOKS 2 ⟨none, none, some (.vNum 1)⟩ 1 (by decide) (by decide)
    (by decide) (by decide)).1

/-- Claim C9: create answers 400 with no store access at all (no load, no
    save) when title or author is missing or empty; otherwise it appends a
    record carrying the payload's title and author, with `available` equal to
    the payload's value when that value is a boolean and `true` when it is
    absent or not a boolean, saves, and answers 201 with the created
    record. -/
theorem c9_create (bs : List Book) (p : CreatePayload) :
    ((p.title = none ∨ p.title = some "" ∨ p.author = none ∨ p.author = some "") →
      postBooks bs p = ⟨400, .errMsg "title and author are required", bs, []⟩)
    ∧ (∀ t a, p.title = some t → t ≠ "" → p.author = some a → a ≠ "" →
      postBooks bs p
        = ⟨201, .record ⟨maxId bs + 1, t, a, availOrDefault p.available⟩,
            bs ++ [⟨maxId bs + 1, t, a, availOrDefault p.available⟩], [.load, .save]⟩
      ∧ (∀ v, p.available = some (.vBool v) → availOrDefault p.available = v)
      ∧ (p.available = none → availOrDefault p.available = true)
      ∧ (∀ w, p.available = some w → (∀ v, w ≠ .vBool v) → availOrDefault p.available = true)) := by
  constructor
  · intro h
    rcases h with h | h | h | h <;> simp [postBooks, strFalsy, h]
  · intro t a hto htne hao hane
    have h1 : strFalsy p.title = false := by
      simp [strFalsy, hto, htne]
    have h2 : strFalsy p.author = false := by
      simp [strFalsy, hao, hane]
    refine ⟨?_, ?_, ?_, ?_⟩
    · simp [postBooks, strFalsy, hto, hao, htne, hane]
    · intro v hv
      simp [availOrDefault, hv]
    · intro hv
      simp [availOrDefault, hv]
    · intro w hw hnb
      rcases w with _ | v | m | s
      · simp [availOrDefault, hw]
      · exact absurd rfl (hnb v)
      · simp [availOrDefault, hw]
      · simp [availOrDefault, hw]

/-- Claim C9, witness instance: an empty title is rejected with no store
    events; a valid payload appends id 3 with `available` defaulting to
    true. -/
theorem c9_witness :
    postBooks SAMPLE_BOOKS ⟨some "", some "Y", none⟩
        = ⟨400, .errMsg "title and author are required", SAMPLE_BOOKS, []⟩
    ∧ postBooks SAMPLE_BOOKS ⟨some "X", some "Y", none⟩
        = ⟨201, .record ⟨3, "X", "Y", true⟩,
            SAMPLE_BOOKS ++ [⟨3, "X", "Y", true⟩], [.load, .save]⟩ := by
  constructor
  · exact (c9_create SAMPLE_BOOKS ⟨some "", some "Y", none⟩).1 (Or.inr (Or.inl rfl))
  · exact ((c9_create SAMPLE_BOOKS ⟨some "X", some "Y", none⟩).2 "X" "Y" rfl
      (by decide) rfl (by decide)).1

/-- Claim C10: on update and delete, whenever the id path segment's `Number`
    conversion fails the guard `Number.isInteger(id) && id > 0` — i.e. the
    segment does not denote a positive integer, as with `Number('abc') = NaN`
    or `Number('-1') = -1` — the handler answers 400 "Invalid id" (never 404)
    with the collection unchanged and no store access; a positive integer id
    matching no record answers 404 with the collection unchanged, nothing
    saved and no record created. -/
theorem c10_id_errors :
    (∀ (bs : List Book) (p : UpdatePayload) (idn : JsNum),
        posIntOf idn = none →
        putBooks bs idn p = ⟨400, .errMsg "Invalid id", bs, []⟩
        ∧ deleteBooks bs idn = ⟨400, .errMsg "Invalid id", bs, []⟩
        ∧ (putBooks bs idn p).status ≠ 404
        ∧ (deleteBooks bs idn).status ≠ 404)
    ∧ (∀ (bs : List Book) (p : UpdatePayload) (n : Int),
        0 < n → (∀ b ∈ bs, b.id ≠ n) →
        ¬(p.title = none ∧ p.author = none ∧ p.available = none) →
        putBooks bs (.int n) p = ⟨404, .errMsg "Book not found", bs, [.load]⟩
        ∧ deleteBooks bs (.int n) = ⟨404, .errMsg "Book not found", bs, [.load]⟩) := by
  constructor
  · intro bs p idn h
    have h1 : putBooks bs idn p = ⟨400, .errMsg "Invalid id", bs, []⟩ :=
      putBooks_badId h
    have h2 : deleteBooks bs idn = ⟨400, .errMsg "Invalid id", bs, []⟩ :=
      deleteBooks_badId h
    refine ⟨h1, h2, ?_, ?_⟩
    · rw [h1]
      simp
    · rw [h2]
      simp
  · intro bs p n hn hno hne
    have hf : bs.findIdx? (fun b => b.id = n) = none := by
      apply List.findIdx?_eq_none_iff.mpr
      intro x hx
      simp [hno x hx]
    exact ⟨putBooks_notFound hn hne hf, deleteBooks_notFound hn hf⟩

/-- Claim C10, witness instance: `Number('abc')` is `NaN` and `Number('-1')`
    is `-1`, so the segments `abc` and `-1` instantiate the two guard-failing
    shapes (`.nan` and a non-positive integer) and answer the validation
    error; a fresh positive id answers not-found. -/
theorem c10_witness :
    putBooks SAMPLE_BOOKS .nan ⟨some "T", none, none⟩
        = ⟨400, .errMsg "Invalid id", SAMPLE_BOOKS, []⟩
    ∧ deleteBooks SAMPLE_BOOKS (.int (-1)) = ⟨400, .errMsg "Invalid id", SAMPLE_BOOKS, []⟩
    ∧ putBooks SAMPLE_BOOKS (.int 3) ⟨some "T", none, none⟩
        = ⟨404, .errMsg "Book not found", SAMPLE_BOOKS, [.load]⟩ :=
  ⟨(c10_id_errors.1 SAMPLE_BOOKS ⟨some "T", none, none⟩ .nan (by decide)).1,
   (c10_id_errors.1 SAMPLE_BOOKS ⟨some "T", none, none⟩ (.int (-1)) (by decide)).2.1,
   (c10_id_errors.2 SAMPLE_BOOKS ⟨some "T", none, none⟩ 3 (by decide) (by decide) (by decide)).1⟩
